import Mathlib

/-!
Shallow embedding of `src/timepiece.py`: a bounded interval history
(`BaseClock`, backed by a `collections.deque` with `maxlen`), a `Ticker`
recording elapsed time between successive `tick()` calls, and a `StopWatch`
tree of named timing scopes with context-manager brackets.

Floating-point seconds are modelled as rationals (`ℚ`); the monotonic clock
readings appear as explicit arguments to the operations that read the clock.
Python object identity for `StopWatch` nodes is modelled with an arena
(`Heap`): nodes are indexed by natural numbers and parent/child links are
indices into the arena, mirroring the Python object graph.
-/

namespace Timepiece

/-- Models `collections.deque.append` on a deque constructed with
`maxlen = ml`: the new value is placed at the right end and, when the deque
is full, the leftmost (oldest) element is discarded.  With `ml = 0` the
deque retains nothing. -/
def dequeAppend (ml : Nat) (xs : List ℚ) (v : ℚ) : List ℚ :=
  (xs ++ [v]).drop ((xs ++ [v]).length - ml)

/-- Appends a whole sequence of values via `dequeAppend`, left to right. -/
def dequeAppendAll (ml : Nat) (xs : List ℚ) (vs : List ℚ) : List ℚ :=
  vs.foldl (dequeAppend ml) xs

/-- Models the state of `BaseClock`: the `intervals` deque together with its
`maxlen`.  `maxlen` is fixed by `__init__` and never changes. -/
structure BaseClock where
  maxlen : Nat
  intervals : List ℚ
  deriving Repr, DecidableEq

/-- Models `BaseClock.__init__(max_intervals)`.  The capacity argument is an
integer; `deque(maxlen=m)` raises `ValueError` when `m` is negative and
otherwise creates an empty deque (a `maxlen` of `0` is accepted and retains
nothing).  There is no further validation in the source. -/
def mkBaseClock (maxIntervals : Int) : Except String BaseClock :=
  if maxIntervals < 0 then .error "maxlen must be non-negative"
  else .ok { maxlen := maxIntervals.toNat, intervals := [] }

/-- Models `BaseClock.min`: `min(self.intervals)` when non-empty, else `0.0`. -/
def BaseClock.min (c : BaseClock) : ℚ :=
  match c.intervals with
  | [] => 0
  | h :: t => t.foldl Min.min h

/-- Models `BaseClock.max`: `max(self.intervals)` when non-empty, else `0.0`. -/
def BaseClock.max (c : BaseClock) : ℚ :=
  match c.intervals with
  | [] => 0
  | h :: t => t.foldl Max.max h

/-- Models `BaseClock.mean`: `sum(intervals) / len(intervals)` when
non-empty, else `0.0`. -/
def BaseClock.mean (c : BaseClock) : ℚ :=
  if c.intervals.length > 0 then c.intervals.sum / c.intervals.length else 0

/-- Models `BaseClock.freq`: `1 / mean` when `mean > 0`, else `0.0`. -/
def BaseClock.freq (c : BaseClock) : ℚ :=
  let m := c.mean
  if m > 0 then 1 / m else 0

/-- Models the state of `Ticker`: a `BaseClock` plus `_last_tick`. -/
structure Ticker where
  clock : BaseClock
  lastTick : Option ℚ
  deriving Repr, DecidableEq

/-- Models `Ticker.__init__(max_intervals)`: `BaseClock.__init__` plus
`_last_tick = None`. -/
def mkTicker (maxIntervals : Int) : Except String Ticker :=
  (mkBaseClock maxIntervals).map fun c => { clock := c, lastTick := none }

/-- Models `Ticker.tick` with the clock reading `now` passed explicitly:
if a previous tick exists, append `now - _last_tick`; then set
`_last_tick = now` unconditionally. -/
def Ticker.tick (t : Ticker) (now : ℚ) : Ticker :=
  { clock :=
      { t.clock with
        intervals :=
          match t.lastTick with
          | some l => dequeAppend t.clock.maxlen t.clock.intervals (now - l)
          | none => t.clock.intervals }
    lastTick := some now }

/-- Runs `tick` once per clock reading in `ts`, in order. -/
def Ticker.ticks (t : Ticker) (ts : List ℚ) : Ticker :=
  ts.foldl Ticker.tick t

/-- The successive differences of a list of clock readings starting from a
baseline `l`: the intervals a `Ticker` computes from those readings. -/
def diffsFrom (l : ℚ) (ts : List ℚ) : List ℚ :=
  match ts with
  | [] => []
  | t :: ts => (t - l) :: diffsFrom t ts

/-- The intervals between successive readings of a list (empty for fewer
than two readings). -/
def tickDiffs (ts : List ℚ) : List ℚ :=
  match ts with
  | [] => []
  | t :: ts => diffsFrom t ts

/-- Models `str.join(sep, items)` as Python computes it: empty for an empty
list, otherwise the first item followed by `sep ++ item` for each later
item. -/
def pyJoin (sep : String) (l : List String) : String :=
  match l with
  | [] => ""
  | a :: t => t.foldl (fun acc x => acc ++ sep ++ x) a

/-- Models the per-object state of a `StopWatch`: the inherited `BaseClock`
fields plus `name`, `parent` (an arena index, `none` for a root),
`children` (a name-keyed map with insertion order preserved, modelled as an
association list of names and arena indices) and `_start`. -/
structure SWNode where
  name : String
  maxlen : Nat
  intervals : List ℚ
  parent : Option Nat
  children : List (String × Nat)
  start : Option ℚ
  deriving Repr, DecidableEq

/-- An arena of `StopWatch` objects; indices into `nodes` play the role of
Python object identity. -/
structure Heap where
  nodes : List SWNode
  deriving Repr, DecidableEq

/-- Looks a node up by arena index (a dummy node out of range; theorems
carry in-range hypotheses). -/
def Heap.get (h : Heap) (i : Nat) : SWNode :=
  h.nodes.getD i { name := "", maxlen := 0, intervals := [], parent := none,
                   children := [], start := none }

/-- Models `StopWatch.__init__(name, max_intervals)` for a root object:
`BaseClock.__init__` (the same `deque(maxlen=...)`, hence the same
`ValueError` on negative capacity), `parent = None`, empty `children`,
`_start = None`.  The new object is placed at the end of the arena and its
index returned. -/
def mkStopWatch (h : Heap) (name : String) (maxIntervals : Int) :
    Except String (Heap × Nat) :=
  if maxIntervals < 0 then .error "maxlen must be non-negative"
  else .ok ({ nodes := h.nodes ++
                [{ name := name, maxlen := maxIntervals.toNat, intervals := [],
                   parent := none, children := [], start := none }] },
            h.nodes.length)

/-- Models `StopWatch.child(name, max_intervals)`: return the cached child
when `name` is already a key of `self.children`; otherwise create a new
`StopWatch` whose capacity defaults to the parent's `maxlen` when
`max_intervals is None`, set its parent link to `self`, register it under
`name` and return it. -/
def Heap.child (h : Heap) (i : Nat) (name : String) (maxIntervals : Option Nat) :
    Heap × Nat :=
  let n := h.get i
  match n.children.lookup name with
  | some cid => (h, cid)
  | none =>
    let ml := maxIntervals.getD n.maxlen
    let cid := h.nodes.length
    let c : SWNode := { name := name, maxlen := ml, intervals := [],
                        parent := some i, children := [], start := none }
    ({ nodes := (h.nodes.set i { n with children := n.children ++ [(name, cid)] }) ++ [c] },
     cid)

/-- Models the generator `StopWatch.parents`: walk `parent` links from the
immediate parent up to the root, collecting each node's index.  The Python
loop terminates because the object graph is a tree; here a fuel argument
bounds the walk. -/
def Heap.parentIds (h : Heap) (fuel : Nat) (i : Nat) : List Nat :=
  match fuel with
  | 0 => []
  | fuel + 1 =>
    match (h.get i).parent with
    | none => []
    | some p => p :: h.parentIds fuel p

/-- Models the property `StopWatch.level`: `len(list(self.parents()))`,
with fuel `h.nodes.length` (enough for any tree stored in the arena). -/
def Heap.level (h : Heap) (i : Nat) : Nat :=
  (h.parentIds h.nodes.length i).length

/-- Models `StopWatch.full_name`: the node's own name followed by the
parents' names, reversed and joined with dots. -/
def Heap.fullName (h : Heap) (i : Nat) : String :=
  pyJoin "."
    (((h.get i).name :: (h.parentIds h.nodes.length i).map (fun p => (h.get p).name)).reverse)

/-- Models `StopWatch.__enter__` with the clock reading passed explicitly:
sets `_start = now` (and returns `self`, i.e. the same index). -/
def SWNode.enterB (n : SWNode) (now : ℚ) : SWNode :=
  { n with start := some now }

/-- Models `StopWatch.__exit__` with the clock reading passed explicitly:
appends `now - _start` to the intervals deque and clears `_start`.  When
`_start` is `None` the subtraction `now - None` raises `TypeError`; that
fault is modelled as `none`. -/
def SWNode.exitB (n : SWNode) (now : ℚ) : Option SWNode :=
  match n.start with
  | none => none
  | some s =>
    some { n with intervals := dequeAppend n.maxlen n.intervals (now - s),
                  start := none }

/-- Runs one complete `with` bracket per `(enter-time, exit-time)` pair in
`ps`, in order: each pair enters and then exits the same node. -/
def SWNode.runBrackets (n : SWNode) (ps : List (ℚ × ℚ)) : Option SWNode :=
  match ps with
  | [] => some n
  | p :: ps =>
    match (n.enterB p.1).exitB p.2 with
    | none => none
    | some n => n.runBrackets ps

/-- Models `BaseClock.MAX_REPR_INTERVALS`. -/
def MAX_REPR_INTERVALS : Nat := 5

/-- The four fractional digits of a fixed-point rendering, given the scaled
value modulo 10000: a string of exactly four digit characters. -/
def frac4 (m : Nat) : String :=
  String.mk [Nat.digitChar (m / 1000 % 10), Nat.digitChar (m / 100 % 10),
             Nat.digitChar (m / 10 % 10), Nat.digitChar (m % 10)]

/-- Models the format specifier `f'{x:.4f}'`: fixed-point notation with
exactly four digits after the decimal point, with the magnitude rounded at
the fourth fractional digit and a leading minus sign for negative values. -/
def fmt4 (q : ℚ) : String :=
  let n : Nat := (round (|q| * 10000)).toNat
  (if q < 0 then "-" else "") ++ Nat.repr (n / 10000) ++ "." ++ frac4 (n % 10000)

/-- Models the `iv_list` built in `BaseClock._repr_props`: the first
`MAX_REPR_INTERVALS` intervals formatted with `fmt4`, with the token `...`
appended when more intervals exist. -/
def ivListStr (xs : List ℚ) : List String :=
  let l := (xs.take MAX_REPR_INTERVALS).map fmt4
  if MAX_REPR_INTERVALS < xs.length then l ++ ["..."] else l

/-- Models `BaseClock._repr_props`: no properties at all when the history
is empty, otherwise the `intervals`, `min`, `mean` and `max` fields. -/
def BaseClock.reprProps (c : BaseClock) : List String :=
  if c.intervals.isEmpty then []
  else ["intervals=[" ++ pyJoin ", " (ivListStr c.intervals) ++ "]",
        "min=" ++ fmt4 c.min,
        "mean=" ++ fmt4 c.mean,
        "max=" ++ fmt4 c.max]

/-- Models `BaseClock.__repr__` with the runtime class name passed in:
`'<' + ' '.join([classname] + props) + '>'`. -/
def BaseClock.reprStr (c : BaseClock) (cls : String) : String :=
  "<" ++ pyJoin " " (cls :: c.reprProps) ++ ">"

/-- The `BaseClock` portion of a `StopWatch` node's state. -/
def SWNode.toClock (n : SWNode) : BaseClock :=
  { maxlen := n.maxlen, intervals := n.intervals }

/-- Models `StopWatch._repr_props`: the `name` field followed by the
inherited `BaseClock` properties. -/
def SWNode.reprProps (n : SWNode) : List String :=
  ("name=" ++ n.name) :: n.toClock.reprProps

/-- Models `StopWatch.__repr__`: non-root nodes get a leading newline and a
four-spaces-per-level indent, the `children=[...]` block is appended only
when children exist, and children are rendered recursively in insertion
order.  The recursion is fuelled; any fuel at least the tree height makes
it reach every node, mirroring the finite recursion in Python. -/
def Heap.swRepr (h : Heap) (fuel : Nat) (i : Nat) : String :=
  match fuel with
  | 0 => ""
  | fuel + 1 =>
    let n := h.get i
    let lvl := h.level i
    let indent := String.mk (List.replicate (4 * lvl) ' ')
    let props := n.reprProps ++
      (if n.children.isEmpty then []
       else ["children=[" ++
             pyJoin ", " (n.children.map (fun c => h.swRepr fuel c.2)) ++
             "\n" ++ indent ++ "]"])
    (if 0 < lvl then "\n" else "") ++ indent ++
      "<" ++ pyJoin " " ("StopWatch" :: props) ++ ">"

/-- Well-formedness of the arena: every child entry of every node points
into the arena, at a node that carries the entry's name and whose parent
link points back at the registering node.  Python guarantees this by
construction in `StopWatch.child`. -/
def Heap.WF (h : Heap) : Prop :=
  ∀ i, i < h.nodes.length → ∀ e ∈ (h.get i).children,
    e.2 < h.nodes.length ∧ (h.get e.2).name = e.1 ∧ (h.get e.2).parent = some i

instance (h : Heap) : Decidable h.WF := by
  unfold Heap.WF; infer_instance

/-- A root `StopWatch('root')` with the default capacity 10. -/
def rootNode : SWNode :=
  { name := "root", maxlen := 10, intervals := [], parent := none,
    children := [], start := none }

/-- The arena holding just the root object. -/
def heap0 : Heap := { nodes := [rootNode] }

/-- The arena after `root.child('a')`, with the index of `a`. -/
def heapA : Heap × Nat := heap0.child 0 "a" none

/-- The arena after `root.child('a').child('b')`, with the index of `b`. -/
def heapB : Heap × Nat := heapA.1.child heapA.2 "b" none

/-! ### Helper lemmas -/

theorem dequeAppend_length (ml : Nat) (xs : List ℚ) (v : ℚ) :
    (dequeAppend ml xs v).length = min (xs.length + 1) ml := by
  simp only [dequeAppend, List.length_drop, List.length_append, List.length_cons,
    List.length_nil]
  omega

theorem dequeAppend_eq_drop (ml : Nat) (xs : List ℚ) (v : ℚ) :
    dequeAppend ml xs v = (xs ++ [v]).drop (xs.length + 1 - ml) := by
  simp [dequeAppend]

theorem dequeAppendAll_eq_drop (ml : Nat) (vs : List ℚ) :
    ∀ xs : List ℚ, xs.length ≤ ml →
      dequeAppendAll ml xs vs = (xs ++ vs).drop ((xs ++ vs).length - ml) := by
  induction vs with
  | nil =>
    intro xs hx
    simp only [dequeAppendAll, List.foldl_nil, List.append_nil]
    rw [show xs.length - ml = 0 by omega, List.drop_zero]
  | cons v vs ih =>
    intro xs hx
    have hstep : dequeAppendAll ml xs (v :: vs) =
        dequeAppendAll ml (dequeAppend ml xs v) vs := rfl
    rw [hstep, ih _ (by rw [dequeAppend_length]; omega)]
    rw [dequeAppend_eq_drop]
    have hk : xs.length + 1 - ml ≤ (xs ++ [v]).length := by
      simp only [List.length_append, List.length_cons, List.length_nil]; omega
    rw [← List.drop_append_of_le_length hk, List.drop_drop]
    have hassoc : (xs ++ [v]) ++ vs = xs ++ (v :: vs) := by simp
    rw [hassoc]
    congr 1
    simp only [List.length_append, List.length_drop, List.length_cons, List.length_nil]
    omega

theorem dequeAppendAll_nil_eq_drop (ml : Nat) (vs : List ℚ) :
    dequeAppendAll ml [] vs = vs.drop (vs.length - ml) := by
  simpa using dequeAppendAll_eq_drop ml vs [] (by simp)

/-! ### C1 -/

/-- C1: Bounded FIFO history.  For every capacity `C > 0` and every sequence
`vs` of appended samples, the stored sequence of an intervals deque of
capacity `C` equals the last `min(N, C)` appended values in their original
relative order (the length-`min(N, C)` suffix of `vs`); the stored length
never exceeds `C`; and appending at capacity evicts exactly the single
oldest sample. -/
theorem c1_bounded_fifo_history (C : Nat) (hC : 0 < C) (vs : List ℚ) :
    dequeAppendAll C [] vs = vs.drop (vs.length - C) ∧
    (dequeAppendAll C [] vs).length = min vs.length C ∧
    (∀ xs : List ℚ, ∀ v : ℚ, xs.length ≤ C → (dequeAppend C xs v).length ≤ C) ∧
    (∀ xs : List ℚ, ∀ v : ℚ, xs.length = C → dequeAppend C xs v = xs.tail ++ [v]) := by
  refine ⟨dequeAppendAll_nil_eq_drop C vs, ?_, ?_, ?_⟩
  · rw [dequeAppendAll_nil_eq_drop, List.length_drop]
    omega
  · intro xs v _
    rw [dequeAppend_length]; omega
  · intro xs v hlen
    rw [dequeAppend_eq_drop, hlen, show C + 1 - C = 1 by omega]
    have h1 : 1 ≤ xs.length := by omega
    rw [List.drop_append_of_le_length h1, List.drop_one]

/-- Witness for C1 at capacity 2 with three appends: the history holds the
last two values, in order. -/
theorem c1_witness :
    0 < 2 ∧ dequeAppendAll 2 [] [1, 2, 3] = ([1, 2, 3] : List ℚ).drop (3 - 2) :=
  ⟨by decide, (c1_bounded_fifo_history 2 (by decide) [1, 2, 3]).1⟩

theorem diffsFrom_length (l : ℚ) (ts : List ℚ) :
    (diffsFrom l ts).length = ts.length := by
  induction ts generalizing l with
  | nil => rfl
  | cons t ts ih => simp [diffsFrom, ih]

theorem ticks_from_baseline (ts : List ℚ) :
    ∀ (c : BaseClock) (l : ℚ),
      Ticker.ticks { clock := c, lastTick := some l } ts =
        { clock := { maxlen := c.maxlen,
                     intervals := dequeAppendAll c.maxlen c.intervals (diffsFrom l ts) },
          lastTick := some (ts.getLastD l) } := by
  induction ts with
  | nil => intro c l; cases c; simp [Ticker.ticks, dequeAppendAll, diffsFrom]
  | cons t ts ih =>
    intro c l
    have hstep : Ticker.ticks { clock := c, lastTick := some l } (t :: ts) =
        Ticker.ticks
          { clock := { maxlen := c.maxlen,
                       intervals := dequeAppend c.maxlen c.intervals (t - l) },
            lastTick := some t } ts := rfl
    rw [hstep, ih]
    simp [diffsFrom, dequeAppendAll]
    cases ts with
    | nil => simp
    | cons a as =>
      obtain ⟨x, hx⟩ := Option.isSome_iff_exists.mp
        (List.getLast?_isSome.mpr (List.cons_ne_nil a as))
      simp [hx]

/-! ### C3 -/

/-- C3: Ticker interval count.  For a `Ticker` constructed with capacity `C`
and any `K ≥ 1` calls to `tick` at clock readings `t0 :: ts` (so
`K = ts.length + 1`), the history holds exactly `min (K - 1) C` samples; the
first call records no interval, and the stored samples are exactly the
last-`C` suffix of the successive differences of the readings — each
recorded interval is the elapsed time since the previous call. -/
theorem c3_ticker_interval_count (C : Int) (tk : Ticker)
    (h : mkTicker C = .ok tk) (t0 : ℚ) (ts : List ℚ) :
    (tk.ticks [t0]).clock.intervals = [] ∧
    (tk.ticks (t0 :: ts)).clock.intervals =
      (tickDiffs (t0 :: ts)).drop (ts.length - C.toNat) ∧
    ((tk.ticks (t0 :: ts)).clock.intervals).length = min ts.length C.toNat := by
  have htk : tk = { clock := { maxlen := C.toNat, intervals := [] }, lastTick := none } := by
    by_cases hc : C < 0 <;> simp [mkTicker, mkBaseClock, Except.map, hc] at h
    exact h.symm
  subst htk
  have hfirst : Ticker.ticks
      { clock := { maxlen := C.toNat, intervals := [] }, lastTick := none } (t0 :: ts) =
      Ticker.ticks
        { clock := { maxlen := C.toNat, intervals := [] }, lastTick := some t0 } ts := rfl
  refine ⟨by simp [hfirst, Ticker.ticks, Ticker.tick], ?_, ?_⟩
  · rw [hfirst, ticks_from_baseline]
    simp only [tickDiffs]
    rw [dequeAppendAll_nil_eq_drop, diffsFrom_length]
  · rw [hfirst, ticks_from_baseline]
    simp only []
    rw [dequeAppendAll_nil_eq_drop, List.length_drop, diffsFrom_length]
    omega

/-- Witness for C3: a capacity-2 ticker ticked four times holds the last
two of the three successive differences. -/
theorem c3_witness :
    mkTicker 2 = .ok { clock := { maxlen := 2, intervals := [] }, lastTick := none } ∧
    ((Ticker.ticks { clock := { maxlen := 2, intervals := [] }, lastTick := none }
        [1, 2, 4, 8]).clock.intervals).length = min 3 2 := by
  refine ⟨by rfl, ?_⟩
  have := (c3_ticker_interval_count 2
    { clock := { maxlen := 2, intervals := [] }, lastTick := none } (by rfl)
    1 [2, 4, 8]).2.2
  simpa using this

/-! ### C5 -/

/-- Counterexample for C5 as stated: capacity `0` is non-positive, yet all
three constructors succeed (Python's `deque(maxlen=0)` is accepted; only a
negative `maxlen` raises `ValueError`). -/
theorem c5_counterexample :
    ¬ (0 : Int) > 0 ∧
    (mkBaseClock 0).isOk = true ∧
    (mkTicker 0).isOk = true ∧
    (mkStopWatch { nodes := [] } "root" 0).isOk = true := by
  refine ⟨by decide, by rfl, by rfl, by rfl⟩

/-- C5 (amended): constructing an `IntervalHistory` (`BaseClock`), `Ticker`
or `ScopeTimer` (`StopWatch`) fails with an invalid-argument error exactly
when the capacity argument is negative; every capacity `≥ 0` (including 0)
is accepted and yields an empty history. -/
theorem c5_fail_fast_construction (cap : Int) (h : Heap) (nm : String) :
    (cap < 0 →
      (mkBaseClock cap).isOk = false ∧ (mkTicker cap).isOk = false ∧
      (mkStopWatch h nm cap).isOk = false) ∧
    (0 ≤ cap →
      mkBaseClock cap = .ok { maxlen := cap.toNat, intervals := [] } ∧
      (mkTicker cap).isOk = true ∧ (mkStopWatch h nm cap).isOk = true) := by
  constructor
  · intro hc
    simp [mkBaseClock, mkTicker, mkStopWatch, Except.map, hc, Except.isOk, Except.toBool]
  · intro hc
    have hc' : ¬ cap < 0 := by omega
    simp [mkBaseClock, mkTicker, mkStopWatch, Except.map, hc', Except.isOk, Except.toBool]

/-- Witness for C5 (amended) at capacity `-1` and capacity `3`. -/
theorem c5_witness :
    ((-1 : Int) < 0 → (mkBaseClock (-1)).isOk = false ∧ (mkTicker (-1)).isOk = false ∧
      (mkStopWatch { nodes := [] } "r" (-1)).isOk = false) ∧
    ((0 : Int) ≤ 3 → mkBaseClock 3 = .ok { maxlen := (3 : Int).toNat, intervals := [] } ∧
      (mkTicker 3).isOk = true ∧ (mkStopWatch { nodes := [] } "r" 3).isOk = true) :=
  ⟨(c5_fail_fast_construction (-1) { nodes := [] } "r").1,
   fun _ => (c5_fail_fast_construction 3 { nodes := [] } "r").2 (by decide)⟩

/-! ### C6 -/

/-- C6: Vacuous statistics.  On an empty history `min`, `max` and `mean`
all return `0.0`; `freq` returns the exact reciprocal of `mean` whenever
`mean > 0` and `0.0` otherwise, so it never divides by zero; the queries
are pure functions of the state and leave the sample sequence untouched. -/
theorem c6_vacuous_statistics (c : BaseClock) :
    (c.intervals = [] → c.min = 0 ∧ c.max = 0 ∧ c.mean = 0 ∧ c.freq = 0) ∧
    (0 < c.mean → c.freq * c.mean = 1) ∧
    (¬ 0 < c.mean → c.freq = 0) := by
  refine ⟨?_, ?_, ?_⟩
  · intro he
    refine ⟨?_, ?_, ?_, ?_⟩
    · rw [BaseClock.min, he]
    · rw [BaseClock.max, he]
    · rw [BaseClock.mean, he]; simp
    · rw [BaseClock.freq]
      have hm : c.mean = 0 := by rw [BaseClock.mean, he]; simp
      simp [hm]
  · intro hm
    rw [BaseClock.freq]
    simp only [hm, if_pos]
    field_simp
  · intro hm
    rw [BaseClock.freq]
    simp [hm]

/-- Witness for C6 on a freshly constructed empty history and on a
one-sample history with positive mean. -/
theorem c6_witness :
    (BaseClock.min { maxlen := 10, intervals := [] } = 0 ∧
     BaseClock.max { maxlen := 10, intervals := [] } = 0 ∧
     BaseClock.mean { maxlen := 10, intervals := [] } = 0 ∧
     BaseClock.freq { maxlen := 10, intervals := [] } = 0) ∧
    BaseClock.freq { maxlen := 10, intervals := [2] } *
      BaseClock.mean { maxlen := 10, intervals := [2] } = 1 :=
  ⟨(c6_vacuous_statistics { maxlen := 10, intervals := [] }).1 rfl,
   (c6_vacuous_statistics { maxlen := 10, intervals := [2] }).2.1 (by norm_num [BaseClock.mean])⟩

/-! ### C2 -/

theorem runBrackets_isSome (ps : List (ℚ × ℚ)) :
    ∀ n : SWNode, (n.runBrackets ps).isSome := by
  induction ps with
  | nil => intro n; rfl
  | cons p ps ih =>
    intro n
    have : (n.enterB p.1).exitB p.2 =
        some { n with intervals := dequeAppend n.maxlen n.intervals (p.2 - p.1),
                      start := none } := rfl
    simp only [SWNode.runBrackets, this]
    exact ih _

theorem runBrackets_intervals (ps : List (ℚ × ℚ)) :
    ∀ n : SWNode, n.intervals.length + ps.length ≤ n.maxlen →
      (n.runBrackets ps).map SWNode.intervals =
        some (n.intervals ++ ps.map (fun p => p.2 - p.1)) := by
  induction ps with
  | nil => intro n _; simp [SWNode.runBrackets]
  | cons p ps ih =>
    intro n hcap
    have hone : (n.enterB p.1).exitB p.2 =
        some { n with intervals := dequeAppend n.maxlen n.intervals (p.2 - p.1),
                      start := none } := rfl
    have hroom : n.intervals.length + 1 ≤ n.maxlen := by
      simp only [List.length_cons] at hcap; omega
    have happ : dequeAppend n.maxlen n.intervals (p.2 - p.1) =
        n.intervals ++ [p.2 - p.1] := by
      rw [dequeAppend_eq_drop, show n.intervals.length + 1 - n.maxlen = 0 by omega,
        List.drop_zero]
    simp only [SWNode.runBrackets, hone]
    rw [ih _ (by
      simp only [happ, List.length_append, List.length_cons, List.length_nil] at hcap ⊢
      omega)]
    simp [happ]

/-- C2: Bracket accounting.  A completed enter/exit pair on a `StopWatch`
node appends exactly one sample to that node's own history (its length
becomes `min (len + 1) maxlen`: one appended, at most one evicted); and a
fresh node of capacity `C` taken through `N ≤ C` enter/exit brackets at
monotonic clock readings ends with exactly `N` samples — the `N` elapsed
times in order, each `≥ 0`. -/
theorem c2_bracket_accounting (nm : String) (C : Nat) (ps : List (ℚ × ℚ))
    (hN : ps.length ≤ C) (hmono : ∀ p ∈ ps, p.1 ≤ p.2) :
    (∀ (n : SWNode) (t1 t2 : ℚ),
      (n.enterB t1).exitB t2 =
        some { n with intervals := dequeAppend n.maxlen n.intervals (t2 - t1),
                      start := none } ∧
      ((n.enterB t1).exitB t2).map (fun m => m.intervals.length) =
        some (min (n.intervals.length + 1) n.maxlen)) ∧
    ∃ n' : SWNode,
      SWNode.runBrackets
        { name := nm, maxlen := C, intervals := [], parent := none,
          children := [], start := none } ps = some n' ∧
      n'.intervals = ps.map (fun p => p.2 - p.1) ∧
      n'.intervals.length = ps.length ∧
      ∀ v ∈ n'.intervals, 0 ≤ v := by
  constructor
  · intro n t1 t2
    refine ⟨rfl, ?_⟩
    have hone : (n.enterB t1).exitB t2 =
        some { n with intervals := dequeAppend n.maxlen n.intervals (t2 - t1),
                      start := none } := rfl
    rw [hone]
    simp [dequeAppend_length]
  · set n0 : SWNode :=
      { name := nm, maxlen := C, intervals := [], parent := none,
        children := [], start := none } with hn0
    obtain ⟨n', hn'⟩ := Option.isSome_iff_exists.mp (runBrackets_isSome ps n0)
    refine ⟨n', hn', ?_, ?_, ?_⟩
    · have := runBrackets_intervals ps n0 (by simp [hn0]; omega)
      rw [hn'] at this
      simpa using this
    · have := runBrackets_intervals ps n0 (by simp [hn0]; omega)
      rw [hn'] at this
      simp at this
      simp [this]
    · have := runBrackets_intervals ps n0 (by simp [hn0]; omega)
      rw [hn'] at this
      simp at this
      rw [this]
      intro v hv
      obtain ⟨p, hp, hpv⟩ := List.mem_map.mp hv
      have hle := hmono p hp
      rw [← hpv]
      exact sub_nonneg.mpr hle

/-- Witness for C2: two brackets on a fresh capacity-3 node yield the two
elapsed times, in order. -/
theorem c2_witness :
    (2 : Nat) ≤ 3 ∧
    ∃ n' : SWNode,
      SWNode.runBrackets
        { name := "w", maxlen := 3, intervals := [], parent := none,
          children := [], start := none } [(1, 3), (4, 9)] = some n' ∧
      n'.intervals = [(1, 3), (4, 9)].map
        (fun p : ℚ × ℚ => p.2 - p.1) ∧
      n'.intervals.length = 2 ∧
      ∀ v ∈ n'.intervals, 0 ≤ v :=
  ⟨by decide,
   (c2_bracket_accounting "w" 3 [(1, 3), (4, 9)] (by decide)
     (by intro p hp; fin_cases hp <;> norm_num)).2⟩

/-! ### C8 -/

/-- C8: Bracket state machine.  Entry sets `_start` (ACTIVE); exit clears
it back to `None` (IDLE); entering again while already active is a total
operation that simply overwrites `_start` (last-write-wins, the whole state
is the same as if only the second entry had happened), so the following
exit records the interval measured from the most recent entry. -/
theorem c8_bracket_state_machine (n : SWNode) (t1 t2 t3 : ℚ) :
    (n.enterB t1).start = some t1 ∧
    ((n.enterB t1).exitB t2).map SWNode.start = some none ∧
    (n.enterB t1).enterB t2 = n.enterB t2 ∧
    ((n.enterB t1).enterB t2).exitB t3 =
      some { n with intervals := dequeAppend n.maxlen n.intervals (t3 - t2),
                    start := none } :=
  ⟨rfl, rfl, rfl, rfl⟩

/-! ### C10 -/

/-- C10: Exit without an open bracket faults.  When `_start` is absent the
bracket-exit computation `now - _start` is undefined (`TypeError` in
Python): the operation neither no-ops nor records a sample, and it is
well-defined exactly when a bracket is currently open. -/
theorem c10_exit_requires_active (n : SWNode) (now : ℚ) :
    (n.start = none → n.exitB now = none) ∧
    ((n.exitB now).isSome ↔ n.start.isSome) := by
  constructor
  · intro h
    simp [SWNode.exitB, h]
  · cases hs : n.start <;> simp [SWNode.exitB, hs]

/-- Witness for C10: a freshly constructed node has no open bracket and its
exit operation faults. -/
theorem c10_witness :
    SWNode.exitB
      { name := "w", maxlen := 10, intervals := [], parent := none,
        children := [], start := none } 5 = none :=
  (c10_exit_requires_active
    { name := "w", maxlen := 10, intervals := [], parent := none,
      children := [], start := none } 5).1 rfl

/-! ### C4 -/

theorem lookup_mem {l : List (String × Nat)} {k : String} {v : Nat}
    (h : l.lookup k = some v) : (k, v) ∈ l := by
  induction l with
  | nil => simp [List.lookup] at h
  | cons e es ih =>
    cases e with
    | mk a b =>
      simp only [List.lookup] at h
      split at h
      · rename_i hbeq
        have hka : k = a := by simpa using hbeq
        simp only [Option.some.injEq] at h
        subst hka; subst h
        exact List.mem_cons_self _ _
      · exact List.mem_cons_of_mem _ (ih h)

theorem lookup_append_self {l : List (String × Nat)} {x : String} {c : Nat}
    (hx : l.lookup x = none) : (l ++ [(x, c)]).lookup x = some c := by
  induction l with
  | nil => simp [List.lookup]
  | cons e es ih =>
    cases e with
    | mk a b =>
      simp only [List.cons_append, List.lookup] at hx ⊢
      split at hx
      · simp at hx
      · exact ih hx

theorem lookup_append_other {l : List (String × Nat)} {x y : String} {c : Nat}
    (hxy : y ≠ x) : (l ++ [(x, c)]).lookup y = l.lookup y := by
  induction l with
  | nil =>
    have hb : (y == x) = false := by simpa using hxy
    simp [List.lookup, hb]
  | cons e es ih =>
    cases e with
    | mk a b =>
      simp only [List.cons_append, List.lookup]
      split
      · rfl
      · exact ih

theorem heap_get_append_last (l : List SWNode) (c : SWNode) :
    Heap.get { nodes := l ++ [c] } l.length = c := by
  rw [Heap.get, List.getD_eq_getElem?_getD, List.getElem?_append_right (Nat.le_refl _)]
  simp

theorem heap_get_set_append_self (l : List SWNode) (a c : SWNode) (i : Nat)
    (hi : i < l.length) :
    Heap.get { nodes := l.set i a ++ [c] } i = a := by
  rw [Heap.get, List.getD_eq_getElem?_getD, List.getElem?_append,
    if_pos (by simpa using hi), List.getElem?_set_self (by simpa using hi)]
  rfl

theorem heap_get_set_append_other (l : List SWNode) (a c : SWNode) (i j : Nat)
    (hj : j < l.length) (hne : j ≠ i) :
    Heap.get { nodes := l.set i a ++ [c] } j = Heap.get { nodes := l } j := by
  rw [Heap.get, List.getD_eq_getElem?_getD, List.getElem?_append,
    if_pos (by simpa using hj), List.getElem?_set_ne (by omega)]
  rw [Heap.get, List.getD_eq_getElem?_getD]

theorem child_cached {h : Heap} {i : Nat} {x : String} {c : Nat} (cap : Option Nat)
    (hx : ((h.get i).children).lookup x = some c) : h.child i x cap = (h, c) := by
  simp only [Heap.child, hx]

theorem child_fresh {h : Heap} {i : Nat} {x : String} (cap : Option Nat)
    (hx : ((h.get i).children).lookup x = none) :
    h.child i x cap =
      ({ nodes :=
          (h.nodes.set i
            { h.get i with
              children := (h.get i).children ++ [(x, h.nodes.length)] }) ++
          [{ name := x, maxlen := cap.getD (h.get i).maxlen, intervals := [],
             parent := some i, children := [], start := none }] },
       h.nodes.length) := by
  simp only [Heap.child, hx]

/-- C4: Child caching and capacity inheritance.  On a well-formed arena,
two `child` calls with the same name return the identical node (and the
arena is left unchanged by the second); a call with a distinct name returns
a distinct node; the returned child's parent link is the calling node and
it is registered under its name in the caller's children map; and a
freshly created child given no explicit capacity inherits the calling
parent's capacity. -/
theorem c4_child_caching (h : Heap) (hwf : h.WF) (i : Nat)
    (hi : i < h.nodes.length) (x y : String) (hxy : x ≠ y)
    (cap cap2 cap3 : Option Nat) :
    (h.child i x cap).1.child i x cap2 = h.child i x cap ∧
    ((h.child i x cap).1.child i y cap3).2 ≠ (h.child i x cap).2 ∧
    ((h.child i x cap).1.get (h.child i x cap).2).parent = some i ∧
    ((h.child i x cap).1.get i).children.lookup x = some (h.child i x cap).2 ∧
    ((h.get i).children.lookup x = none → cap = none →
      ((h.child i x cap).1.get (h.child i x cap).2).maxlen = (h.get i).maxlen) := by
  cases hx : ((h.get i).children).lookup x with
  | some c1 =>
    have hcall : h.child i x cap = (h, c1) := child_cached cap hx
    obtain ⟨hc1lt, hc1name, hc1par⟩ := hwf i hi (x, c1) (lookup_mem hx)
    refine ⟨?_, ?_, ?_, ?_, ?_⟩
    · rw [hcall]
      exact child_cached cap2 hx
    · rw [hcall]
      show (h.child i y cap3).2 ≠ c1
      cases hy : ((h.get i).children).lookup y with
      | some c2 =>
        rw [child_cached cap3 hy]
        obtain ⟨_, hc2name, _⟩ := hwf i hi (y, c2) (lookup_mem hy)
        intro heq
        simp only at heq
        rw [heq] at hc2name
        rw [hc2name] at hc1name
        exact hxy hc1name.symm
      | none =>
        rw [child_fresh cap3 hy]
        simp only
        omega
    · rw [hcall]
      exact hc1par
    · rw [hcall]
      exact hx
    · intro hnone _
      exact absurd hnone (by simp)
  | none =>
    have hcall := child_fresh cap hx
    rw [hcall]
    simp only
    set cnew : SWNode :=
      { name := x, maxlen := cap.getD (h.get i).maxlen, intervals := [],
        parent := some i, children := [], start := none } with hcnew
    set nup : SWNode :=
      { h.get i with
        children := (h.get i).children ++ [(x, h.nodes.length)] } with hnup
    set Hnew : Heap := { nodes := h.nodes.set i nup ++ [cnew] } with hHnew
    have hgeti : Hnew.get i = nup := heap_get_set_append_self _ _ _ _ hi
    have hgetnew : Hnew.get h.nodes.length = cnew := by
      have hl : (h.nodes.set i nup).length = h.nodes.length := by simp
      have := heap_get_append_last (h.nodes.set i nup) cnew
      rw [hl] at this
      exact this
    have hlookx : (Hnew.get i).children.lookup x = some h.nodes.length := by
      rw [hgeti, hnup]
      exact lookup_append_self hx
    refine ⟨?_, ?_, ?_, ?_, ?_⟩
    · exact child_cached cap2 hlookx
    · have hlooky : (Hnew.get i).children.lookup y =
          ((h.get i).children).lookup y := by
        rw [hgeti, hnup]
        exact lookup_append_other (Ne.symm hxy)
      cases hy : ((h.get i).children).lookup y with
      | some c2 =>
        rw [child_cached cap3 (hlooky.trans hy)]
        obtain ⟨hc2lt, _, _⟩ := hwf i hi (y, c2) (lookup_mem hy)
        simp only
        omega
      | none =>
        rw [child_fresh cap3 (hlooky.trans hy)]
        simp only [hHnew]
        simp
    · rw [hgetnew]
    · exact hlookx
    · intro _ hcap
      rw [hgetnew, hcnew, hcap]
      rfl

/-- Witness for C4 on the one-node root arena: repeating `child 'x'` is
idempotent and the created child's parent is the root. -/
theorem c4_witness :
    (heap0.child 0 "x" none).1.child 0 "x" none = heap0.child 0 "x" none ∧
    ((heap0.child 0 "x" none).1.get (heap0.child 0 "x" none).2).parent = some 0 :=
  ⟨(c4_child_caching heap0 (by decide) 0 (by decide) "x" "y" (by decide)
      none none none).1,
   (c4_child_caching heap0 (by decide) 0 (by decide) "x" "y" (by decide)
      none none none).2.2.1⟩

/-! ### C9 -/

/-- C9: Ancestry queries.  `parents` walks parent links from the immediate
parent upward and is empty for a root (so a root's `level` is 0 and its
`full_name` is its own name); one step of the walk prepends the immediate
parent.  On the concrete chain root → a → b built by `child`, b's ancestor
indices are `[a, root]`, `b.level = 2` (the number of ancestors),
`b.full_name = "root.a.b"`, `a.full_name = "root.a"`, and the root has
level 0 and full name `"root"`. -/
theorem c9_ancestry (h : Heap) (i fuel : Nat) :
    ((h.get i).parent = none →
      h.parentIds fuel i = [] ∧ h.level i = 0 ∧ h.fullName i = (h.get i).name) ∧
    (∀ p, (h.get i).parent = some p →
      h.parentIds (fuel + 1) i = p :: h.parentIds fuel p) ∧
    (heapB.1.parentIds heapB.1.nodes.length heapB.2 = [heapA.2, 0] ∧
     heapB.1.level heapB.2 = 2 ∧
     heapB.1.fullName heapB.2 = "root.a.b" ∧
     heapB.1.level heapA.2 = 1 ∧
     heapB.1.fullName heapA.2 = "root.a" ∧
     heapB.1.level 0 = 0 ∧
     heapB.1.fullName 0 = "root") := by
  refine ⟨?_, ?_, ?_⟩
  · intro hp
    have hids : ∀ f : Nat, h.parentIds f i = [] := by
      intro f
      cases f with
      | zero => rfl
      | succ f => simp [Heap.parentIds, hp]
    refine ⟨hids fuel, ?_, ?_⟩
    · rw [Heap.level, hids]
      rfl
    · rw [Heap.fullName, hids]
      rfl
  · intro p hp
    simp [Heap.parentIds, hp]
  · refine ⟨by decide, by decide, by decide, by decide, by decide, by decide, by decide⟩

/-- Witness for C9 at the root of the one-node arena: no parent, no
ancestors, level 0, full name equal to its own name. -/
theorem c9_witness :
    heap0.parentIds 5 0 = [] ∧ heap0.level 0 = 0 ∧
    heap0.fullName 0 = (heap0.get 0).name :=
  (c9_ancestry heap0 0 5).1 (by decide)

/-! ### C7 -/

theorem foldl_sep_pre (t : List String) (pre acc : String) :
    t.foldl (fun a x => a ++ " " ++ x) (pre ++ acc) =
      pre ++ t.foldl (fun a x => a ++ " " ++ x) acc := by
  induction t generalizing acc with
  | nil => simp
  | cons x t ih =>
    simp only [List.foldl_cons]
    rw [String.append_assoc pre acc " ", String.append_assoc pre (acc ++ " ") x]
    exact ih _

theorem pyJoin_sp_cons2 (a p : String) (t : List String) :
    pyJoin " " (a :: p :: t) = (a ++ " ") ++ pyJoin " " (p :: t) := by
  simp only [pyJoin, List.foldl_cons]
  exact foldl_sep_pre t (a ++ " ") p

theorem append_lit_sw (X : String) :
    "<" ++ ("StopWatch" ++ (" " ++ X)) = "<StopWatch " ++ X := by
  rw [← String.append_assoc, ← String.append_assoc]
  rfl

theorem swRepr_succ (h : Heap) (fuel i : Nat) :
    h.swRepr (fuel + 1) i =
      (if 0 < h.level i then "\n" else "") ++
        String.mk (List.replicate (4 * h.level i) ' ') ++ "<StopWatch " ++
        (pyJoin " "
          ((h.get i).reprProps ++
            (if (h.get i).children.isEmpty then []
             else ["children=[" ++
                   pyJoin ", " ((h.get i).children.map (fun c => h.swRepr fuel c.2)) ++
                   "\n" ++ String.mk (List.replicate (4 * h.level i) ' ') ++ "]"])) ++
         ">") := by
  simp only [Heap.swRepr, SWNode.reprProps, List.cons_append]
  rw [pyJoin_sp_cons2]
  simp only [String.append_assoc]
  rw [append_lit_sw]

theorem digitChar_isDigit : ∀ k : Nat, k < 10 → (Nat.digitChar k).isDigit = true := by
  decide

theorem frac4_length (m : Nat) : (frac4 m).length = 4 := rfl

theorem fmt4_decomp (q : ℚ) :
    fmt4 q =
      ((if q < 0 then "-" else "") ++
        Nat.repr ((round (|q| * 10000)).toNat / 10000)) ++ "." ++
        frac4 ((round (|q| * 10000)).toNat % 10000) := rfl

theorem fmt4_ne_ellipsis (q : ℚ) : fmt4 q ≠ "..." := by
  intro heq
  have h1 : (fmt4 q).length = ("..." : String).length := by rw [heq]
  rw [fmt4_decomp, String.length_append, String.length_append, frac4_length] at h1
  have h3 : ("..." : String).length = 3 := rfl
  have h4 : ("." : String).length = 1 := rfl
  rw [h3, h4] at h1
  omega

/-- C7: Rendering format.  The fixed-point formatter always produces
exactly four fractional digit characters after the decimal point; the
rendered interval list holds the first `MAX_REPR_INTERVALS` (5) formatted
values with the token `...` present exactly when more are stored; a node's
statistics fields are omitted exactly when its history is empty (a
`StopWatch` then shows only `name=`); and the rendered text of a node is
prefixed by a newline plus a four-spaces-per-level indent exactly when the
node is a non-root, the root rendering starting directly with
`<StopWatch `. -/
theorem c7_rendering_format :
    (∀ m : Nat, (frac4 m).length = 4 ∧ ∀ ch ∈ (frac4 m).data, ch.isDigit = true) ∧
    (∀ q : ℚ, ∃ pre : String,
      fmt4 q = pre ++ "." ++ frac4 ((round (|q| * 10000)).toNat % 10000)) ∧
    (∀ xs : List ℚ,
      ("..." ∈ ivListStr xs ↔ MAX_REPR_INTERVALS < xs.length) ∧
      (ivListStr xs).length =
        min xs.length MAX_REPR_INTERVALS +
          (if MAX_REPR_INTERVALS < xs.length then 1 else 0)) ∧
    (∀ c : BaseClock, c.reprProps = [] ↔ c.intervals = []) ∧
    (∀ n : SWNode, n.intervals = [] → n.reprProps = ["name=" ++ n.name]) ∧
    (∀ (h : Heap) (fuel i : Nat), ∃ rest : String,
      h.swRepr (fuel + 1) i =
        (if 0 < h.level i then "\n" else "") ++
          String.mk (List.replicate (4 * h.level i) ' ') ++ "<StopWatch " ++ rest ∧
      (h.level i = 0 → h.swRepr (fuel + 1) i = "<StopWatch " ++ rest) ∧
      (0 < h.level i → h.swRepr (fuel + 1) i =
        "\n" ++ String.mk (List.replicate (4 * h.level i) ' ') ++
          "<StopWatch " ++ rest)) := by
  refine ⟨?_, ?_, ?_, ?_, ?_, ?_⟩
  · intro m
    refine ⟨frac4_length m, ?_⟩
    intro ch hch
    have hdata : (frac4 m).data =
        [Nat.digitChar (m / 1000 % 10), Nat.digitChar (m / 100 % 10),
         Nat.digitChar (m / 10 % 10), Nat.digitChar (m % 10)] := rfl
    rw [hdata] at hch
    simp only [List.mem_cons, List.not_mem_nil, or_false] at hch
    rcases hch with h | h | h | h <;>
      (subst h; exact digitChar_isDigit _ (Nat.mod_lt _ (by norm_num)))
  · intro q
    exact ⟨_, fmt4_decomp q⟩
  · intro xs
    constructor
    · by_cases h5 : MAX_REPR_INTERVALS < xs.length
      · simp [ivListStr, h5]
      · simp only [ivListStr, if_neg h5]
        constructor
        · intro hmem
          obtain ⟨q, _, hq⟩ := List.mem_map.mp hmem
          exact absurd hq (fmt4_ne_ellipsis q)
        · intro hlen
          exact absurd hlen h5
    · by_cases h5 : MAX_REPR_INTERVALS < xs.length <;>
        simp [ivListStr, h5, List.length_take] <;> omega
  · intro c
    rw [BaseClock.reprProps]
    by_cases he : c.intervals.isEmpty <;> simp [he]
    · exact List.isEmpty_iff.mp he
    · exact fun hc => he (by simp [hc])
  · intro n hn
    simp [SWNode.reprProps, BaseClock.reprProps, SWNode.toClock, hn]
  · intro h fuel i
    refine ⟨_, swRepr_succ h fuel i, ?_, ?_⟩
    · intro h0
      rw [swRepr_succ, h0]
      rfl
    · intro hpos
      rw [swRepr_succ, if_pos hpos]

/-- Witness for C7: the fractional part has four digit characters; the
root of the concrete chain arena renders with no leading newline or
indent; and its child `a` renders at level 1 with a leading newline and a
four-space indent. -/
theorem c7_witness :
    (frac4 7).length = 4 ∧
    (∃ rest : String, heapB.1.swRepr 3 0 = "<StopWatch " ++ rest) ∧
    (∃ rest : String, heapB.1.swRepr 3 heapA.2 =
      "\n" ++ String.mk (List.replicate (4 * heapB.1.level heapA.2) ' ') ++
        "<StopWatch " ++ rest) := by
  refine ⟨(c7_rendering_format.1 7).1, ?_, ?_⟩
  · obtain ⟨rest, _, hroot, _⟩ := c7_rendering_format.2.2.2.2.2 heapB.1 2 0
    exact ⟨rest, hroot (by decide)⟩
  · obtain ⟨rest, _, _, hdeep⟩ := c7_rendering_format.2.2.2.2.2 heapB.1 2 heapA.2
    exact ⟨rest, hdeep (by decide)⟩

end Timepiece
